import Mathlib

/-!
Verification development for the tippmester quantum engine backend.

The repository's numeric computations (Python floats) are embedded as exact
rationals (`ℚ`); Python's `round(x, n)` (round-half-to-even on the scaled
value) is embedded as `round_dec`.  Engine outputs are modelled as finite
association lists of string keys to rational values, matching the insertion
ordered dictionaries of the source.  Non-numeric output values are outside
the model: in the source they make the category aggregation step raise a
`TypeError` (summing a non-number), so every terminating fusion run only
involves numeric values.
-/

namespace S2P

/-- Round-half-to-even of a rational to an integer, the semantics of Python's
built-in `round`. -/
def rhe (x : ℚ) : ℤ :=
  if x - ⌊x⌋ < 1/2 then ⌊x⌋
  else if 1/2 < x - ⌊x⌋ then ⌊x⌋ + 1
  else if ⌊x⌋ % 2 = 0 then ⌊x⌋ else ⌊x⌋ + 1

/-- Python's `round(x, n)`: round-half-to-even at `n` decimal digits. -/
def round_dec (n : ℕ) (x : ℚ) : ℚ := (rhe (x * 10 ^ n) : ℚ) / 10 ^ n

/-- First-match lookup in an association list, the semantics of `dict`
key access / `dict.get` (keys are unique in every dict the source builds). -/
def lookupQ {α : Type} (d : List (String × α)) (k : String) : Option α :=
  (d.find? (fun kv => kv.1 = k)).map Prod.snd

/-! ## backend/engine/kombi_optimizer.py -/

/-- One tip (candidate bet) as consumed by `KombiOptimizer.optimize`:
the dict fields the source reads. -/
structure Tip where
  match_id : ℕ
  market_type : String
  odds : ℚ
  probability : ℚ
  value_score : ℚ
  confidence : ℚ
deriving DecidableEq, Repr

/-- `KombiOptimizer.__init__` configuration: `kombi_min_total_odds`,
`kombi_max_total_odds`, `kombi_tips_count` (defaults 5.5, 8.5, 4). -/
structure KombiConfig where
  minTotalOdds : ℚ := 5.5
  maxTotalOdds : ℚ := 8.5
  maxTips : ℕ := 4
deriving DecidableEq, Repr

/-- `KombiOptimizer._has_duplicate_matches`: `len(ids) != len(set(ids))`. -/
def hasDuplicateMatches (tips : List Tip) : Bool :=
  !decide ((tips.map (fun t => t.match_id)).Nodup)

/-- The raw product of the members' odds (the running `total` inside
`KombiOptimizer._combined_odds`, before the final `round`). -/
def listProdOdds (tips : List Tip) : ℚ :=
  tips.foldl (fun total t => total * t.odds) 1

/-- `KombiOptimizer._combined_odds`: product of odds rounded to 3 decimals. -/
def combinedOdds (tips : List Tip) : ℚ := round_dec 3 (listProdOdds tips)

/-- The product of the members' probabilities (the `win_prob` accumulator in
`KombiOptimizer._combined_ev`). -/
def listProdProb (tips : List Tip) : ℚ :=
  tips.foldl (fun p t => p * t.probability) 1

/-- `KombiOptimizer._combined_ev`:
`round(win_prob * total_odds - (1 - win_prob), 4)` where `total_odds` is the
rounded combined odds. -/
def combinedEV (tips : List Tip) : ℚ :=
  round_dec 4 (listProdProb tips * combinedOdds tips - (1 - listProdProb tips))

/-- `KombiOptimizer._is_correlated`: same match, or `t1` a total together
with `t2` a btts, or both totals.  (The totals/btts test is on the ordered
pair exactly as in the source.) -/
def isCorrelated (t1 t2 : Tip) : Bool :=
  if t1.match_id = t2.match_id then true
  else if t1.market_type = "total" && t2.market_type = "btts" then true
  else if t1.market_type = "total" && t2.market_type = "total" then true
  else false

/-- The ordered pairs produced by `itertools.combinations(tips, 2)`. -/
def allPairs {α : Type} : List α → List (α × α)
  | [] => []
  | x :: xs => xs.map (fun y => (x, y)) ++ allPairs xs

/-- `KombiOptimizer._group_correlation_check`. -/
def groupCorrelationCheck (tips : List Tip) : Bool :=
  (allPairs tips).any (fun p => isCorrelated p.1 p.2)

/-- `itertools.combinations(l, n)`: all `n`-element sublists of `l` in the
source order (lexicographic by position). -/
def combos {α : Type} : ℕ → List α → List (List α)
  | 0, _ => [[]]
  | _ + 1, [] => []
  | n + 1, x :: xs => (combos n xs).map (fun c => x :: c) ++ combos (n + 1) xs

/-- The three per-subset feasibility checks of `KombiOptimizer.optimize`
(steps 2/A, 2/B, 2/C): no duplicate matches, no pairwise correlation,
combined (rounded) odds inside the configured interval. -/
def feasible (mn mx : ℚ) (tips : List Tip) : Bool :=
  !hasDuplicateMatches tips && !groupCorrelationCheck tips &&
    (decide (mn ≤ combinedOdds tips) && decide (combinedOdds tips ≤ mx))

/-- The candidate filter of `KombiOptimizer.optimize` step 1:
`value_score > 0.15 and confidence > 0.55`. -/
def qualifies (t : Tip) : Bool :=
  decide ((0.15 : ℚ) < t.value_score) && decide ((0.55 : ℚ) < t.confidence)

/-- The best-so-far loop of `KombiOptimizer.optimize`: walk the enumerated
combinations keeping `(best_combo, best_ev)`, replacing the best only on a
strictly greater EV of a feasible combination. -/
def scanBest (mn mx : ℚ) : List (List Tip) → Option (List Tip) → ℚ →
    Option (List Tip) × ℚ
  | [], best, bestEv => (best, bestEv)
  | c :: rest, best, bestEv =>
    if feasible mn mx c ∧ bestEv < combinedEV c then
      scanBest mn mx rest (some c) (combinedEV c)
    else
      scanBest mn mx rest best bestEv

/-- Result of `KombiOptimizer.optimize`: the two distinct error dicts and the
success dict. -/
inductive KombiResult where
  | insufficientCandidates
  | noFeasibleCombination
  | slate (tips : List Tip) (total_odds : ℚ) (combined_ev : ℚ) (tips_count : ℕ)
deriving DecidableEq, Repr

/-- `KombiOptimizer.optimize`.  The source iterates `combo_size in [3, 4]`
(the `combo_size > len(candidates)` guard is subsumed: `combos n l = []`
when `n > l.length`), starting from `best_ev = -999` and no best combo. -/
def optimize (cfg : KombiConfig) (all_tips : List Tip) : KombiResult :=
  let candidates := all_tips.filter qualifies
  if candidates.length < 3 then .insufficientCandidates
  else
    match scanBest cfg.minTotalOdds cfg.maxTotalOdds
        (combos 3 candidates ++ combos 4 candidates) none (-999) with
    | (none, _) => .noFeasibleCombination
    | (some best, _) =>
      .slate best (combinedOdds best) (combinedEV best) best.length

/-- The default configuration (no config dict passed). -/
def defaultConfig : KombiConfig := {}

/-! ## backend/core/universal_fusion_engine.py -/

/-- A raw engine output as seen by `UniversalFusionEngine._normalize_output`:
either a plain number or a dict of numeric measures.  (`None` outputs are the
`Option` wrapper at use sites.) -/
inductive RawOut where
  | num (q : ℚ)
  | dict (d : List (String × ℚ))
deriving DecidableEq, Repr

/-- The `raw_outputs` mapping built by `run_all_engines`:
engine name ↦ (category, output). -/
abbrev RawOutputs := List (String × String × Option RawOut)

/-- `max(0.0, min(1.0, value))`. -/
def clamp01 (v : ℚ) : ℚ := max 0 (min 1 v)

/-- `UniversalFusionEngine._normalize_output`: `None` stays `None`, a dict has
every (numeric) value clamped to `[0, 1]`, a bare number becomes
`{"value": clamped}`. -/
def normalizeOutput : Option RawOut → Option (List (String × ℚ))
  | none => none
  | some (.dict d) => some (d.map (fun kv => (kv.1, clamp01 kv.2)))
  | some (.num q) => some [("value", clamp01 q)]

/-- The fixed category weight table from `UniversalFusionEngine.__init__`
(`self.weights`), in its insertion order. -/
def catWeights : List (String × ℚ) :=
  [("sharp", 0.30), ("deep", 0.25), ("statistical", 0.20), ("ml", 0.10),
   ("rating", 0.07), ("rl", 0.05), ("meta", 0.03)]

/-- `agg.setdefault(key, []).append(value)`: append `v` to the value list of
`k` (lists keep encounter order; a fresh key goes to the end, matching dict
insertion order). -/
def addKV : List (String × List ℚ) → String → ℚ → List (String × List ℚ)
  | [], k, v => [(k, [v])]
  | kv :: rest, k, v =>
    if kv.1 = k then (kv.1, kv.2 ++ [v]) :: rest else kv :: addKV rest k v

/-- Step 3 of `UniversalFusionEngine.fuse` for one category: collect every
key's values across the category's normalized outputs, then average each
key's list. -/
def aggregate (outs : List (List (String × ℚ))) : List (String × ℚ) :=
  let collected := outs.foldl
    (fun acc out => out.foldl (fun a kv => addKV a kv.1 kv.2) acc) []
  collected.map (fun kv => (kv.1, kv.2.sum / (kv.2.length : ℚ)))

/-- Steps 1–3 of `UniversalFusionEngine.fuse`: normalize every output, group
the non-`None` ones under the seven fixed categories (an output whose
category is not one of the seven is dropped by the `cat in category_outputs`
guard), and aggregate each category.  Engines keep their `raw_outputs`
iteration order. -/
def categoryScores (raw : RawOutputs) : List (String × List (String × ℚ)) :=
  catWeights.map (fun cw =>
    (cw.1, aggregate (raw.filterMap (fun e =>
      if e.2.1 = cw.1 then normalizeOutput e.2.2 else none))))

/-- The football canonical schema of `map_to_liquid_markets`:
canonical field ↦ synonym key list. -/
def footballSchema : List (String × List String) :=
  [("ah_home", ["ah_home", "asian_home", "handicap_home"]),
   ("ah_away", ["ah_away", "asian_away", "handicap_away"]),
   ("over_2_5", ["over25", "o25", "over_2_5"]),
   ("under_2_5", ["under25", "u25", "under_2_5"]),
   ("btts_yes", ["btts_yes", "both_score", "btts"]),
   ("btts_no", ["btts_no", "no_both_score"])]

/-- The tennis canonical schema of `map_to_liquid_markets`. -/
def tennisSchema : List (String × List String) :=
  [("p1_win", ["player1_win", "p1"]),
   ("p2_win", ["player2_win", "p2"]),
   ("handicap_p1", ["handicap_p1"]),
   ("handicap_p2", ["handicap_p2"]),
   ("over_games", ["over_games"]),
   ("under_games", ["under_games"])]

/-- The basketball canonical schema of `map_to_liquid_markets`. -/
def basketballSchema : List (String × List String) :=
  [("spread_teamA", ["spread_A", "spread_teamA"]),
   ("spread_teamB", ["spread_B", "spread_teamB"]),
   ("over_total", ["over_total", "o_total"]),
   ("under_total", ["under_total", "u_total"])]

/-- The hockey canonical schema of `map_to_liquid_markets`. -/
def hockeySchema : List (String × List String) :=
  [("handicap_home", ["handicap_home"]),
   ("handicap_away", ["handicap_away"]),
   ("over_goals", ["over_goals", "o_goals"]),
   ("under_goals", ["under_goals", "u_goals"])]

/-- `UniversalFusionEngine._avg_key`, at the shape it is actually called with
inside `fuse`: `outputs` is `category_scores`, so each `data` is a category's
averaged dict whose values are numbers.  `data.get("output", {})` therefore
yields either a number (when the literal key `"output"` is present) — which
fails the `isinstance(out, dict)` test — or the empty-dict default, which
contains no key; so no value is ever collected and the function returns the
mean of an empty list, i.e. `None`. -/
def avgKeyScores (outputs : List (String × List (String × ℚ)))
    (keys : List String) : Option ℚ :=
  let vals : List ℚ := keys.foldl (fun acc _key =>
    outputs.foldl (fun acc2 ed =>
      match lookupQ ed.2 "output" with
      | some _ => acc2
      | none => acc2) acc) []
  if vals.isEmpty then none else some (vals.sum / (vals.length : ℚ))

/-- The value returned by `map_to_liquid_markets`: a sport-specific canonical
template (field ↦ `_avg_key` result) for the four known sports, or the
`normalized_outputs` argument itself (here: `category_scores`) as fallback. -/
inductive Mapped where
  | schema (fields : List (String × Option ℚ))
  | passthrough (cs : List (String × List (String × ℚ)))
deriving DecidableEq, Repr

/-- `UniversalFusionEngine.map_to_liquid_markets` as invoked from `fuse`
(its `normalized_outputs` argument is `category_scores`). -/
def mapToLiquidMarkets (sport : String)
    (cs : List (String × List (String × ℚ))) : Mapped :=
  if sport = "football" then
    .schema (footballSchema.map (fun fs => (fs.1, avgKeyScores cs fs.2)))
  else if sport = "tennis" then
    .schema (tennisSchema.map (fun fs => (fs.1, avgKeyScores cs fs.2)))
  else if sport = "basketball" then
    .schema (basketballSchema.map (fun fs => (fs.1, avgKeyScores cs fs.2)))
  else if sport = "hockey" then
    .schema (hockeySchema.map (fun fs => (fs.1, avgKeyScores cs fs.2)))
  else
    .passthrough cs

/-- `mapped.keys()` — the only part of the mapping result that step 5 of
`fuse` uses. -/
def mappedKeys : Mapped → List String
  | .schema fields => fields.map (fun f => f.1)
  | .passthrough cs => cs.map (fun c => c.1)

/-- `self.weights[cat]`.  Inside `fuse` the categories iterated are exactly
the seven fixed ones, so the lookup never misses; the `getD 0` default is
unreachable there. -/
def weightOf (cat : String) : ℚ := (lookupQ catWeights cat).getD 0

/-- Step 5 of `UniversalFusionEngine.fuse` for one key: sum
`score_dict[key] * weights[cat]` over the categories whose averaged dict
contains `key` (averages are built from numbers, so the
`score_dict[key] is not None` guard never fires in the model). -/
def weightedSum (key : String) (cs : List (String × List (String × ℚ))) : ℚ :=
  cs.foldl (fun total c =>
    match lookupQ c.2 key with
    | some v => total + v * weightOf c.1
    | none => total) 0

/-- Result of `UniversalFusionEngine.fuse`: the `{"prediction": None}`
sentinel or the final field ↦ score mapping. -/
inductive FuseResult where
  | noPrediction
  | finalMap (m : List (String × ℚ))
deriving DecidableEq, Repr

/-- `UniversalFusionEngine.fuse`: normalize, group and aggregate per
category, map to the sport's canonical keys, weight-sum each canonical key
over the category aggregates (rounded to 4 decimals), and collapse an
all-falsy (all-zero) final dict to the no-prediction sentinel. -/
def fuse (sport : String) (raw : RawOutputs) : FuseResult :=
  let cs := categoryScores raw
  let final := (mappedKeys (mapToLiquidMarkets sport cs)).map
    (fun k => (k, round_dec 4 (weightedSum k cs)))
  if final.all (fun kv => decide (kv.2 = 0)) then .noPrediction
  else .finalMap final

/-- What one registered engine does when `run_all_engines` calls it:
return an output (possibly `None`), raise, or expose neither `predict` nor
`run` (skipped). -/
inductive EngineBehavior where
  | scores (o : Option RawOut)
  | raises
  | noMethod
deriving DecidableEq, Repr

/-- A loaded engine: name, category, and its behavior on the given match. -/
structure Engine where
  name : String
  category : String
  behavior : EngineBehavior
deriving DecidableEq, Repr

/-- `UniversalFusionEngine.run_all_engines` on one `match_data`: collect the
outputs of the engines that return, omitting an engine that raises (the
`except` arm) and an engine with no `predict`/`run` method (the `continue`
arm). -/
def runAllEngines (engines : List Engine) : RawOutputs :=
  engines.filterMap (fun e =>
    match e.behavior with
    | .scores o => some (e.name, e.category, o)
    | .raises => none
    | .noMethod => none)

/-! ## backend/core/meta_layer_ensemble_optimizer.py -/

/-- One entry of the `performance` defaultdict of
`MetaLayerEnsembleOptimizer`. -/
structure PerfRec where
  wins : ℕ
  losses : ℕ
  evTotal : ℚ
  samples : ℕ
  variance : ℚ
deriving DecidableEq, Repr

/-- The defaultdict default: all-zero performance record. -/
def perfDefault : PerfRec := ⟨0, 0, 0, 0, 0⟩

/-- The mutable state of `MetaLayerEnsembleOptimizer` touched by
`update_weights`: the global weight dict, the performance dict, and the two
config scalars read in `__init__` (defaults `learning_rate = 0.1`,
`stability_factor = 0.85`). -/
structure MetaState where
  weights : List (String × ℚ)
  performance : List (String × PerfRec)
  lr : ℚ := 0.1
  stabilityFactor : ℚ := 0.85
deriving DecidableEq, Repr

/-- `np.clip(x, lo, hi)`: `min(max(x, lo), hi)`. -/
def clip (x lo hi : ℚ) : ℚ := min (max x lo) hi

/-- `MetaLayerEnsembleOptimizer._engine_reward`: neutral `0.5` under 10
samples, else the winrate/EV/variance blend clipped to `[0.01, 1.0]`. -/
def engineReward (st : MetaState) (name : String) : ℚ :=
  let p := (lookupQ st.performance name).getD perfDefault
  if p.samples < 10 then 0.5
  else
    let winrate := (p.wins : ℚ) / ((max 1 p.samples : ℕ) : ℚ)
    let avgEv := p.evTotal / ((max 1 p.samples : ℕ) : ℚ)
    clip (winrate * 0.5 + avgEv * 0.4 + (1 - p.variance) * 0.1) 0.01 1

/-- `self.weights[eng] = v` on a Python dict: replace the first (only)
binding in place, or append a new binding at the end. -/
def dictSet (d : List (String × ℚ)) (k : String) (v : ℚ) :
    List (String × ℚ) :=
  match d with
  | [] => [(k, v)]
  | kv :: rest => if kv.1 = k then (k, v) :: rest else kv :: dictSet rest k v

/-- Modelled from the spec: the source file
`backend/core/meta_layer_ensemble_optimizer.py` is truncated before the body
of `_normalize` (only its call site in `update_weights` survives), so the
renormalization step is taken from the spec's words: "Renormalize the
updated set so weights sum to 1.0".  Each weight is divided by the table's
total; a table with zero total is left unchanged (nothing to renormalize). -/
def normalizeTable (d : List (String × ℚ)) : List (String × ℚ) :=
  let total := (d.map (fun kv => kv.2)).sum
  if total = 0 then d else d.map (fun kv => (kv.1, kv.2 / total))

/-- The initialization loop of `MetaLayerEnsembleOptimizer.update_weights`:
an engine with no prior weight gets `1 / len(engine_list)`. -/
def initWeights (w : List (String × ℚ)) (engineList : List String) :
    List (String × ℚ) :=
  engineList.foldl
    (fun d e =>
      if (lookupQ d e).isNone then dictSet d e (1 / (engineList.length : ℚ))
      else d)
    w

/-- The reward loop of `MetaLayerEnsembleOptimizer.update_weights`:
`weights[eng] = weights[eng] * stability_factor + reward * lr`.  (After the
initialization loop every engine of the list has a binding, so the `getD 0`
default is unreachable.) -/
def rewardPass (st : MetaState) (w : List (String × ℚ))
    (engineList : List String) : List (String × ℚ) :=
  engineList.foldl
    (fun d e =>
      dictSet d e
        (((lookupQ d e).getD 0) * st.stabilityFactor + engineReward st e * st.lr))
    w

/-- `MetaLayerEnsembleOptimizer.update_weights`: initialize missing weights
uniformly, apply the reward-driven exponential update, then renormalize the
whole weight table. -/
def updateWeights (st : MetaState) (engineList : List String) : MetaState :=
  { st with
      weights := normalizeTable (rewardPass st (initWeights st.weights engineList) engineList) }

/-! ## Spec-following reference definitions

These definitions follow the words of the specification (not the source);
they exist only to be compared with the source-derived definitions above. -/

/-- Following the claim's words for the final fusion of one canonical field:
translate each category aggregate into the canonical schema by averaging the
synonym keys it contains (a category containing none of the synonyms is
skipped, not treated as zero), then sum `translated * weight` over the
contributing categories and round to 4 decimals. -/
def claimFieldValue (raw : RawOutputs) (syns : List String) : ℚ :=
  round_dec 4 (((categoryScores raw).filterMap (fun c =>
    let vals := syns.filterMap (fun s => lookupQ c.2 s)
    if vals.isEmpty then none
    else some ((vals.sum / (vals.length : ℚ)) * weightOf c.1))).sum)

/-- Following the claim's words for the combined expected value of a slate:
`(Π member.probability) * (Π member.price) - (1 - Π member.probability)`,
with no rounding anywhere. -/
def claimExactEV (tips : List Tip) : ℚ :=
  listProdProb tips * listProdOdds tips - (1 - listProdProb tips)

/-! ## Concrete inputs used by counterexamples and witnesses -/

/-- C3 counterexample pool, tip 1. -/
def tA : Tip := ⟨1, "single", 1.8, 0.8, 0.2, 0.6⟩

/-- C3 counterexample pool, tip 2. -/
def tB : Tip := ⟨2, "single", 1.8, 0.8, 0.2, 0.6⟩

/-- C3 counterexample pool, tip 3. -/
def tC : Tip := ⟨3, "single", 1.8, 0.7, 0.2, 0.6⟩

/-- C3 counterexample pool, tip 4: marginally more probable than `tC`, so the
exact EV of `[tA, tB, tD]` marginally exceeds that of `[tA, tB, tC]`, while
both EVs round to the same 4 decimals. -/
def tD : Tip := ⟨4, "single", 1.8, 0.700001, 0.2, 0.6⟩

/-- C3 counterexample pool. -/
def poolC3 : List Tip := [tA, tB, tC, tD]

/-- C5 counterexample pool, tip 1. -/
def u1 : Tip := ⟨1, "single", 2, 0.5, 0.2, 0.6⟩

/-- C5 counterexample pool, tip 2. -/
def u2 : Tip := ⟨2, "single", 2, 0.5, 0.2, 0.6⟩

/-- C5 counterexample pool, tip 3: makes the exact combined price `8.5004`,
which rounds to `8.5` and so passes the range filter. -/
def u3 : Tip := ⟨3, "single", 2.1251, 0.5, 0.2, 0.6⟩

/-- C5 counterexample pool. -/
def poolC5 : List Tip := [u1, u2, u3]

/-- C6 counterexample pool: a btts tip listed before a totals tip. -/
def vB : Tip := ⟨1, "btts", 2, 0.6, 0.2, 0.6⟩

/-- C6 counterexample pool: the totals tip. -/
def vT : Tip := ⟨2, "total", 2, 0.6, 0.2, 0.6⟩

/-- C6 counterexample pool: an uncorrelated third tip. -/
def vS : Tip := ⟨3, "single", 2, 0.6, 0.2, 0.6⟩

/-- C6 counterexample pool. -/
def poolC6 : List Tip := [vB, vT, vS]

/-- C2 counterexample raw outputs: one sharp engine reporting the synonym
key `over25` and the canonical key `ah_home`. -/
def rawC2 : RawOutputs :=
  [("e1", "sharp", some (.dict [("over25", 0.6), ("ah_home", 0.5)]))]

/-- Raw outputs with a single sharp engine reporting only `ah_home`; no
synonym of `over_2_5` occurs anywhere. -/
def rawW : RawOutputs := [("e1", "sharp", some (.dict [("ah_home", 0.5)]))]

/-- The final mapping `fuse "football" rawW` produces. -/
def finalW : List (String × ℚ) :=
  [("ah_home", 3/20), ("ah_away", 0), ("over_2_5", 0), ("under_2_5", 0),
   ("btts_yes", 0), ("btts_no", 0)]

/-- A healthy engine used by the C7 witness. -/
def engA : Engine := ⟨"a", "sharp", .scores (some (.dict [("ah_home", 0.5)]))⟩

/-- An always-raising engine used by the C7 witness. -/
def engB : Engine := ⟨"b", "deep", .raises⟩

/-- A second healthy engine used by the C7 witness. -/
def engC : Engine := ⟨"c", "ml", .scores (some (.dict [("ah_home", 0.7)]))⟩

/-! ## Evaluation lemmas for `round_dec` and `scanBest` -/

lemma rhe_down {x : ℚ} (m : ℤ) (h1 : (m : ℚ) ≤ x) (h2 : x < m + 1/2) :
    rhe x = m := by
  have hf : ⌊x⌋ = m := Int.floor_eq_iff.mpr ⟨h1, by linarith⟩
  unfold rhe
  rw [hf, if_pos (by linarith)]

lemma rhe_up {x : ℚ} (m : ℤ) (h1 : (m : ℚ) + 1/2 < x) (h2 : x < m + 1) :
    rhe x = m + 1 := by
  have hf : ⌊x⌋ = m := Int.floor_eq_iff.mpr ⟨by linarith, by linarith⟩
  unfold rhe
  rw [hf, if_neg (by linarith), if_pos (by linarith)]

lemma round_dec_down (n : ℕ) {x : ℚ} (m : ℤ) (h1 : (m : ℚ) ≤ x * 10 ^ n)
    (h2 : x * 10 ^ n < m + 1/2) : round_dec n x = m / 10 ^ n := by
  rw [round_dec, rhe_down m h1 h2]

lemma round_dec_up (n : ℕ) {x : ℚ} (m : ℤ) (h1 : (m : ℚ) + 1/2 < x * 10 ^ n)
    (h2 : x * 10 ^ n < m + 1) : round_dec n x = (m + 1) / 10 ^ n := by
  rw [round_dec, rhe_up m h1 h2]
  push_cast
  ring

lemma scanBest_cons_pick {mn mx : ℚ} {c : List Tip} {e : ℚ}
    (rest : List (List Tip)) (b : Option (List Tip))
    (h1 : feasible mn mx c = true) (h2 : e < combinedEV c) :
    scanBest mn mx (c :: rest) b e = scanBest mn mx rest (some c) (combinedEV c) := by
  simp only [scanBest]
  rw [if_pos ⟨h1, h2⟩]

lemma scanBest_cons_skip_feas {mn mx : ℚ} {c : List Tip} {e : ℚ}
    (rest : List (List Tip)) (b : Option (List Tip))
    (h : feasible mn mx c = false) :
    scanBest mn mx (c :: rest) b e = scanBest mn mx rest b e := by
  simp only [scanBest]
  rw [if_neg]
  rintro ⟨hf, -⟩
  rw [h] at hf
  exact absurd hf (by simp)

lemma scanBest_cons_skip_ev {mn mx : ℚ} {c : List Tip} {e : ℚ}
    (rest : List (List Tip)) (b : Option (List Tip))
    (h : combinedEV c ≤ e) :
    scanBest mn mx (c :: rest) b e = scanBest mn mx rest b e := by
  simp only [scanBest]
  rw [if_neg]
  rintro ⟨-, hlt⟩
  exact absurd hlt (not_lt.2 h)

lemma feasible_intro {mn mx : ℚ} {tips : List Tip}
    (hdup : hasDuplicateMatches tips = false)
    (hcorr : groupCorrelationCheck tips = false)
    (h1 : mn ≤ combinedOdds tips) (h2 : combinedOdds tips ≤ mx) :
    feasible mn mx tips = true := by
  simp [feasible, hdup, hcorr, decide_eq_true h1, decide_eq_true h2]

lemma feasible_high {mn mx : ℚ} {tips : List Tip}
    (h : ¬ combinedOdds tips ≤ mx) : feasible mn mx tips = false := by
  simp [feasible, decide_eq_false h]

/-! ## Evaluation of `optimize` on the three counterexample pools -/

lemma odds_ABC : combinedOdds [tA, tB, tC] = 729/125 := by
  rw [combinedOdds, round_dec_down 3 5832
    (by norm_num [listProdOdds, tA, tB, tC]) (by norm_num [listProdOdds, tA, tB, tC])]
  norm_num

lemma odds_ABD : combinedOdds [tA, tB, tD] = 729/125 := by
  rw [combinedOdds, round_dec_down 3 5832
    (by norm_num [listProdOdds, tA, tB, tD]) (by norm_num [listProdOdds, tA, tB, tD])]
  norm_num

lemma odds_ACD : combinedOdds [tA, tC, tD] = 729/125 := by
  rw [combinedOdds, round_dec_down 3 5832
    (by norm_num [listProdOdds, tA, tC, tD]) (by norm_num [listProdOdds, tA, tC, tD])]
  norm_num

lemma odds_BCD : combinedOdds [tB, tC, tD] = 729/125 := by
  rw [combinedOdds, round_dec_down 3 5832
    (by norm_num [listProdOdds, tB, tC, tD]) (by norm_num [listProdOdds, tB, tC, tD])]
  norm_num

lemma odds_ABCD : combinedOdds [tA, tB, tC, tD] = 5249/500 := by
  rw [combinedOdds, round_dec_up 3 10497
    (by norm_num [listProdOdds, tA, tB, tC, tD])
    (by norm_num [listProdOdds, tA, tB, tC, tD])]
  norm_num

lemma ev_ABC : combinedEV [tA, tB, tC] = 20607/10000 := by
  rw [combinedEV, odds_ABC, round_dec_down 4 20607
    (by norm_num [listProdProb, tA, tB, tC]) (by norm_num [listProdProb, tA, tB, tC])]
  norm_num

lemma ev_ABD : combinedEV [tA, tB, tD] = 20607/10000 := by
  rw [combinedEV, odds_ABD, round_dec_down 4 20607
    (by norm_num [listProdProb, tA, tB, tD]) (by norm_num [listProdProb, tA, tB, tD])]
  norm_num

lemma ev_ACD : combinedEV [tA, tC, tD] = 16781/10000 := by
  rw [combinedEV, odds_ACD, round_dec_down 4 16781
    (by norm_num [listProdProb, tA, tC, tD]) (by norm_num [listProdProb, tA, tC, tD])]
  norm_num

lemma ev_BCD : combinedEV [tB, tC, tD] = 16781/10000 := by
  rw [combinedEV, odds_BCD, round_dec_down 4 16781
    (by norm_num [listProdProb, tB, tC, tD]) (by norm_num [listProdProb, tB, tC, tD])]
  norm_num

lemma feas_ABC : feasible 5.5 8.5 [tA, tB, tC] = true := by
  refine feasible_intro rfl rfl ?_ ?_ <;> rw [odds_ABC] <;> norm_num

lemma optimize_poolC3 :
    optimize defaultConfig poolC3 = .slate [tA, tB, tC] (729/125) (20607/10000) 3 := by
  have hq : poolC3.filter qualifies = poolC3 := by
    rw [List.filter_eq_self]
    intro t ht
    simp only [poolC3, List.mem_cons, List.not_mem_nil, or_false] at ht
    rcases ht with rfl | rfl | rfl | rfl <;>
      simp [qualifies, tA, tB, tC, tD, decide_eq_true_eq] <;> norm_num
  have hcombos : combos 3 poolC3 ++ combos 4 poolC3 =
      [[tA, tB, tC], [tA, tB, tD], [tA, tC, tD], [tB, tC, tD], [tA, tB, tC, tD]] := by
    simp [combos, poolC3]
  have hmn : defaultConfig.minTotalOdds = 5.5 := rfl
  have hmx : defaultConfig.maxTotalOdds = 8.5 := rfl
  simp only [optimize, hq]
  rw [if_neg (by simp [poolC3]), hcombos, hmn, hmx,
    scanBest_cons_pick _ _ feas_ABC (by rw [ev_ABC]; norm_num),
    scanBest_cons_skip_ev _ _ (by rw [ev_ABD, ev_ABC]),
    scanBest_cons_skip_ev _ _ (by rw [ev_ACD, ev_ABC]; norm_num),
    scanBest_cons_skip_ev _ _ (by rw [ev_BCD, ev_ABC]; norm_num),
    scanBest_cons_skip_feas _ _ (feasible_high (by rw [odds_ABCD]; norm_num))]
  simp only [scanBest]
  rw [ev_ABC, odds_ABC]
  norm_num

lemma odds_C5 : combinedOdds [u1, u2, u3] = 17/2 := by
  rw [combinedOdds, round_dec_down 3 8500
    (by norm_num [listProdOdds, u1, u2, u3]) (by norm_num [listProdOdds, u1, u2, u3])]
  norm_num

lemma ev_C5 : combinedEV [u1, u2, u3] = 3/16 := by
  rw [combinedEV, odds_C5, round_dec_down 4 1875
    (by norm_num [listProdProb, u1, u2, u3]) (by norm_num [listProdProb, u1, u2, u3])]
  norm_num

lemma feas_C5 : feasible 5.5 8.5 [u1, u2, u3] = true := by
  refine feasible_intro rfl rfl ?_ ?_ <;> rw [odds_C5] <;> norm_num

lemma optimize_poolC5 :
    optimize defaultConfig poolC5 = .slate [u1, u2, u3] (17/2) (3/16) 3 := by
  have hq : poolC5.filter qualifies = poolC5 := by
    rw [List.filter_eq_self]
    intro t ht
    simp only [poolC5, List.mem_cons, List.not_mem_nil, or_false] at ht
    rcases ht with rfl | rfl | rfl <;>
      simp [qualifies, u1, u2, u3, decide_eq_true_eq] <;> norm_num
  have hcombos : combos 3 poolC5 ++ combos 4 poolC5 = [[u1, u2, u3]] := by
    simp [combos, poolC5]
  have hmn : defaultConfig.minTotalOdds = 5.5 := rfl
  have hmx : defaultConfig.maxTotalOdds = 8.5 := rfl
  simp only [optimize, hq]
  rw [if_neg (by simp [poolC5]), hcombos, hmn, hmx,
    scanBest_cons_pick _ _ feas_C5 (by rw [ev_C5]; norm_num)]
  simp only [scanBest]
  rw [ev_C5, odds_C5]
  simp

lemma odds_C6 : combinedOdds [vB, vT, vS] = 8 := by
  rw [combinedOdds, round_dec_down 3 8000
    (by norm_num [listProdOdds, vB, vT, vS]) (by norm_num [listProdOdds, vB, vT, vS])]
  norm_num

lemma ev_C6 : combinedEV [vB, vT, vS] = 118/125 := by
  rw [combinedEV, odds_C6, round_dec_down 4 9440
    (by norm_num [listProdProb, vB, vT, vS]) (by norm_num [listProdProb, vB, vT, vS])]
  norm_num

lemma feas_C6 : feasible 5.5 8.5 [vB, vT, vS] = true := by
  refine feasible_intro rfl rfl ?_ ?_ <;> rw [odds_C6] <;> norm_num

lemma optimize_poolC6 :
    optimize defaultConfig poolC6 = .slate [vB, vT, vS] 8 (118/125) 3 := by
  have hq : poolC6.filter qualifies = poolC6 := by
    rw [List.filter_eq_self]
    intro t ht
    simp only [poolC6, List.mem_cons, List.not_mem_nil, or_false] at ht
    rcases ht with rfl | rfl | rfl <;>
      simp [qualifies, vB, vT, vS, decide_eq_true_eq] <;> norm_num
  have hcombos : combos 3 poolC6 ++ combos 4 poolC6 = [[vB, vT, vS]] := by
    simp [combos, poolC6]
  have hmn : defaultConfig.minTotalOdds = 5.5 := rfl
  have hmx : defaultConfig.maxTotalOdds = 8.5 := rfl
  simp only [optimize, hq]
  rw [if_neg (by simp [poolC6]), hcombos, hmn, hmx,
    scanBest_cons_pick _ _ feas_C6 (by rw [ev_C6]; norm_num)]
  simp only [scanBest]
  rw [ev_C6, odds_C6]
  simp

/-! ## Evaluation of `fuse` on the counterexample raw outputs -/

lemma cs_rawC2 : categoryScores rawC2 =
    [("sharp", [("over25", 3/5), ("ah_home", 1/2)]), ("deep", []),
     ("statistical", []), ("ml", []), ("rating", []), ("rl", []), ("meta", [])] := by
  simp [categoryScores, catWeights, rawC2, aggregate, addKV, normalizeOutput,
    clamp01, min_def, max_def]
  norm_num

lemma round4_zero : round_dec 4 (0 : ℚ) = 0 := by
  rw [round_dec_down 4 0 (by norm_num) (by norm_num)]
  norm_num

lemma fuse_rawC2 : fuse "football" rawC2 =
    .finalMap [("ah_home", 3/20), ("ah_away", 0), ("over_2_5", 0),
      ("under_2_5", 0), ("btts_yes", 0), ("btts_no", 0)] := by
  have h15 : round_dec 4 (3/20 : ℚ) = 3/20 := by
    rw [round_dec_down 4 1500 (by norm_num) (by norm_num)]
    norm_num
  simp only [fuse, cs_rawC2]
  simp [mapToLiquidMarkets, mappedKeys, footballSchema, weightedSum, lookupQ,
    weightOf, catWeights, List.find?, h15, round4_zero]
  norm_num [h15, round4_zero]

lemma cs_rawW : categoryScores rawW =
    [("sharp", [("ah_home", 1/2)]), ("deep", []), ("statistical", []),
     ("ml", []), ("rating", []), ("rl", []), ("meta", [])] := by
  simp [categoryScores, catWeights, rawW, aggregate, addKV, normalizeOutput,
    clamp01, min_def, max_def]
  norm_num

lemma fuse_rawW : fuse "football" rawW = .finalMap finalW := by
  have h15 : round_dec 4 (3/20 : ℚ) = 3/20 := by
    rw [round_dec_down 4 1500 (by norm_num) (by norm_num)]
    norm_num
  simp only [fuse, cs_rawW]
  simp [mapToLiquidMarkets, mappedKeys, footballSchema, weightedSum, lookupQ,
    weightOf, catWeights, List.find?, h15, round4_zero, finalW]
  norm_num [h15, round4_zero]

lemma claimField_rawC2 : claimFieldValue rawC2 ["over25", "o25", "over_2_5"] = 9/50 := by
  have h18 : round_dec 4 (9/50 : ℚ) = 9/50 := by
    rw [round_dec_down 4 1800 (by norm_num) (by norm_num)]
    norm_num
  simp only [claimFieldValue, cs_rawC2]
  simp [lookupQ, weightOf, catWeights, List.find?]
  norm_num [h18]

/-! ## Counterexample theorems -/

/-- C2, counterexample: with one sharp engine reporting
`{"over25": 0.6, "ah_home": 0.5}`, the claim's synonym-translated weighted
sum for the canonical field `over_2_5` is `0.18`, but `fuse` maps
`over_2_5` to `0`: the final weighted sum looks the canonical key up
literally in the category aggregates and never applies the synonym
translation. -/
theorem c2_counterexample :
    claimFieldValue rawC2 ["over25", "o25", "over_2_5"] = 9/50 ∧
    fuse "football" rawC2 =
      .finalMap [("ah_home", 3/20), ("ah_away", 0), ("over_2_5", 0),
        ("under_2_5", 0), ("btts_yes", 0), ("btts_no", 0)] ∧
    (9/50 : ℚ) ≠ 0 := by
  refine ⟨claimField_rawC2, fuse_rawC2, by norm_num⟩

/-- C3, counterexample: on `poolC3` the optimizer returns `[tA, tB, tC]`,
yet `[tA, tB, tD]` is also feasible (distinct matches, uncorrelated markets,
exact combined price `5.832` inside the default range) and has a strictly
greater exact combined expected value — the code compares EVs only after
rounding them to 4 decimals, where the two are equal, and keeps the earlier
combination. -/
theorem c3_counterexample :
    optimize defaultConfig poolC3 = .slate [tA, tB, tC] (729/125) (20607/10000) 3 ∧
    feasible defaultConfig.minTotalOdds defaultConfig.maxTotalOdds [tA, tB, tD] = true ∧
    (5.5 : ℚ) ≤ listProdOdds [tA, tB, tD] ∧ listProdOdds [tA, tB, tD] ≤ 8.5 ∧
    claimExactEV [tA, tB, tC] < claimExactEV [tA, tB, tD] := by
  have hmn : defaultConfig.minTotalOdds = 5.5 := rfl
  have hmx : defaultConfig.maxTotalOdds = 8.5 := rfl
  refine ⟨optimize_poolC3, ?_, ?_, ?_, ?_⟩
  · exact feasible_intro rfl rfl (by rw [odds_ABD, hmn]; norm_num)
      (by rw [odds_ABD, hmx]; norm_num)
  · norm_num [listProdOdds, tA, tB, tD]
  · norm_num [listProdOdds, tA, tB, tD]
  · norm_num [claimExactEV, listProdOdds, listProdProb, tA, tB, tC, tD]

/-- C4, counterexample: with one sharp engine reporting only `ah_home`, no
synonym of `over_2_5` occurs in any category aggregate, yet the fused result
maps `over_2_5` to the number `0` — there is no "unavailable" marker in the
output, so this is indistinguishable from a fused signal of exactly zero. -/
theorem c4_counterexample :
    (∀ c ∈ categoryScores rawW, ∀ s ∈ ["over25", "o25", "over_2_5"],
      lookupQ c.2 s = none) ∧
    fuse "football" rawW = .finalMap finalW ∧
    lookupQ finalW "over_2_5" = some 0 := by
  refine ⟨?_, fuse_rawW, ?_⟩
  · rw [cs_rawW]
    intro c hc s hs
    simp only [List.mem_cons, List.not_mem_nil, or_false] at hc hs
    rcases hc with rfl | rfl | rfl | rfl | rfl | rfl | rfl <;>
      rcases hs with rfl | rfl | rfl <;> simp [lookupQ, List.find?]
  · simp [finalW, lookupQ, List.find?]

/-- C5, counterexample: on `poolC5` the optimizer returns a slate whose
exact combined price is `8.5004 > 8.5`; the range filter tests the price
rounded to 3 decimals (`8.5`), so the exact product can leave the closed
interval by up to half a thousandth. -/
theorem c5_counterexample :
    optimize defaultConfig poolC5 = .slate [u1, u2, u3] (17/2) (3/16) 3 ∧
    (8.5 : ℚ) < listProdOdds [u1, u2, u3] := by
  exact ⟨optimize_poolC5, by norm_num [listProdOdds, u1, u2, u3]⟩

/-- C6, counterexample: on `poolC6` the optimizer returns a slate containing
the btts tip `vB` *before* the totals tip `vT`: the correlation predicate
only forbids the ordered pair (total, btts), so a btts member listed before
a totals member slips through. -/
theorem c6_counterexample :
    optimize defaultConfig poolC6 = .slate [vB, vT, vS] 8 (118/125) 3 ∧
    vB.market_type = "btts" ∧ vT.market_type = "total" := by
  exact ⟨optimize_poolC6, rfl, rfl⟩

/-! ## Structural lemmas about `scanBest` and `optimize` -/

lemma scanBest_snd_mono (mn mx : ℚ) :
    ∀ (l : List (List Tip)) (b : Option (List Tip)) (e : ℚ),
      e ≤ (scanBest mn mx l b e).2 := by
  intro l
  induction l with
  | nil => intro b e; simp [scanBest]
  | cons c rest ih =>
    intro b e
    simp only [scanBest]
    split
    case isTrue h => exact le_trans (le_of_lt h.2) (ih _ _)
    case isFalse h => exact ih _ _

lemma scanBest_max (mn mx : ℚ) :
    ∀ (l : List (List Tip)) (b : Option (List Tip)) (e : ℚ) (c : List Tip),
      c ∈ l → feasible mn mx c = true → combinedEV c ≤ (scanBest mn mx l b e).2 := by
  intro l
  induction l with
  | nil => intro b e c hc; exact absurd hc (List.not_mem_nil c)
  | cons d rest ih =>
    intro b e c hc hf
    rcases List.mem_cons.mp hc with rfl | hc
    · simp only [scanBest]
      split
      case isTrue h => exact scanBest_snd_mono mn mx rest _ _
      case isFalse h =>
        have : ¬ e < combinedEV c := fun hlt => h ⟨hf, hlt⟩
        exact le_trans (not_lt.mp this) (scanBest_snd_mono mn mx rest _ _)
    · simp only [scanBest]
      split
      case isTrue h => exact ih _ _ c hc hf
      case isFalse h => exact ih _ _ c hc hf

lemma scanBest_first (mn mx : ℚ) :
    ∀ (l : List (List Tip)) (b : Option (List Tip)) (e : ℚ) (c : List Tip),
      (scanBest mn mx l b e).1 = some c →
      (scanBest mn mx l b e = (b, e) ∧ b = some c) ∨
      ∃ l1 l2, l = l1 ++ c :: l2 ∧ feasible mn mx c = true ∧
        (scanBest mn mx l b e).2 = combinedEV c ∧ e < combinedEV c ∧
        ∀ d ∈ l1, feasible mn mx d = true → combinedEV d < combinedEV c := by
  intro l
  induction l with
  | nil =>
    intro b e c h
    exact Or.inl ⟨rfl, h⟩
  | cons x rest ih =>
    intro b e c h
    by_cases hcond : feasible mn mx x = true ∧ e < combinedEV x
    · rw [show scanBest mn mx (x :: rest) b e =
          scanBest mn mx rest (some x) (combinedEV x) by
        simp only [scanBest]; rw [if_pos hcond]] at h ⊢
      rcases ih _ _ _ h with ⟨heq, hbc⟩ | ⟨l1, l2, hsplit, hfe, hsnd, hgt, hall⟩
      · obtain rfl : x = c := Option.some_injective _ hbc
        refine Or.inr ⟨[], rest, rfl, hcond.1, ?_, hcond.2, by simp⟩
        rw [heq]
      · refine Or.inr ⟨x :: l1, l2, by rw [hsplit]; rfl, hfe, hsnd,
          lt_trans hcond.2 hgt, ?_⟩
        intro d hd hdf
        rcases List.mem_cons.mp hd with rfl | hd
        · exact hgt
        · exact hall d hd hdf
    · rw [show scanBest mn mx (x :: rest) b e = scanBest mn mx rest b e by
        simp only [scanBest]; rw [if_neg hcond]] at h ⊢
      rcases ih _ _ _ h with ⟨heq, hbc⟩ | ⟨l1, l2, hsplit, hfe, hsnd, hgt, hall⟩
      · exact Or.inl ⟨heq, hbc⟩
      · refine Or.inr ⟨x :: l1, l2, by rw [hsplit]; rfl, hfe, hsnd, hgt, ?_⟩
        intro d hd hdf
        rcases List.mem_cons.mp hd with rfl | hd
        · by_contra hnot
          exact hcond ⟨hdf, lt_of_lt_of_le hgt (not_lt.mp hnot)⟩
        · exact hall d hd hdf

lemma combos_length {α : Type} :
    ∀ (l : List α) (n : ℕ) (c : List α), c ∈ combos n l → c.length = n := by
  intro l
  induction l with
  | nil =>
    intro n c hc
    cases n with
    | zero => simp only [combos, List.mem_singleton] at hc; subst hc; rfl
    | succ m => simp [combos] at hc
  | cons x xs ih =>
    intro n c hc
    cases n with
    | zero => simp only [combos, List.mem_singleton] at hc; subst hc; rfl
    | succ m =>
      simp only [combos, List.mem_append, List.mem_map] at hc
      rcases hc with ⟨c2, hc2, rfl⟩ | hc
      · simp [ih m c2 hc2]
      · exact ih (m + 1) c hc

/-- Destructuring `optimize` at a returned slate: the slate's tips were
selected by the scan, are feasible, appear in the enumeration, and their
scan value is their own EV; the reported odds, EV and count are recomputed
from the tips. -/
lemma optimize_slate_destruct (cfg : KombiConfig) (pool tips : List Tip)
    (o e : ℚ) (n : ℕ) (h : optimize cfg pool = .slate tips o e n) :
    ∃ l1 l2,
      combos 3 (pool.filter qualifies) ++ combos 4 (pool.filter qualifies) =
        l1 ++ tips :: l2 ∧
      feasible cfg.minTotalOdds cfg.maxTotalOdds tips = true ∧
      (∀ c ∈ combos 3 (pool.filter qualifies) ++ combos 4 (pool.filter qualifies),
        feasible cfg.minTotalOdds cfg.maxTotalOdds c = true →
        combinedEV c ≤ combinedEV tips) ∧
      (∀ c ∈ l1, feasible cfg.minTotalOdds cfg.maxTotalOdds c = true →
        combinedEV c < combinedEV tips) ∧
      o = combinedOdds tips ∧ e = combinedEV tips ∧ n = tips.length := by
  simp only [optimize] at h
  split at h
  · exact absurd h (by simp)
  · rcases hsc : scanBest cfg.minTotalOdds cfg.maxTotalOdds
        (combos 3 (pool.filter qualifies) ++ combos 4 (pool.filter qualifies))
        none (-999) with ⟨b, e2⟩
    rw [hsc] at h
    cases b with
    | none => simp at h
    | some best =>
      simp only [KombiResult.slate.injEq] at h
      obtain ⟨rfl, ho, he, hn⟩ := h
      have h1 : (scanBest cfg.minTotalOdds cfg.maxTotalOdds
          (combos 3 (pool.filter qualifies) ++ combos 4 (pool.filter qualifies))
          none (-999)).1 = some best := by rw [hsc]
      rcases scanBest_first cfg.minTotalOdds cfg.maxTotalOdds _ _ _ _ h1 with
        ⟨-, hbc⟩ | ⟨l1, l2, hsplit, hfe, hsnd, -, hall⟩
      · exact absurd hbc (by simp)
      · refine ⟨l1, l2, hsplit, hfe, ?_, hall, ho.symm, he.symm, hn.symm⟩
        intro c hc hcf
        have := scanBest_max cfg.minTotalOdds cfg.maxTotalOdds _ none (-999) c hc hcf
        rwa [hsnd] at this

/-- Unwrap the Bool conjunction of `feasible`. -/
lemma feasible_elim {mn mx : ℚ} {tips : List Tip}
    (h : feasible mn mx tips = true) :
    hasDuplicateMatches tips = false ∧ groupCorrelationCheck tips = false ∧
    mn ≤ combinedOdds tips ∧ combinedOdds tips ≤ mx := by
  simp only [feasible, Bool.and_eq_true, Bool.not_eq_true', decide_eq_true_eq] at h
  exact ⟨h.1.1, h.1.2, h.2.1, h.2.2⟩

lemma isCorrelated_eq_false {a b : Tip} (h : isCorrelated a b = false) :
    a.match_id ≠ b.match_id ∧
    ¬(a.market_type = "total" ∧ b.market_type = "btts") ∧
    ¬(a.market_type = "total" ∧ b.market_type = "total") := by
  by_cases h1 : a.match_id = b.match_id
  · rw [isCorrelated, if_pos h1] at h; cases h
  · rw [isCorrelated, if_neg h1] at h
    by_cases h2 : a.market_type = "total" ∧ b.market_type = "btts"
    · rw [if_pos (by simp [h2.1, h2.2])] at h; cases h
    · by_cases h3 : a.market_type = "total" ∧ b.market_type = "total"
      · rw [if_neg (by simpa [Bool.and_eq_true, decide_eq_true_eq] using h2),
          if_pos (by simp [h3.1, h3.2])] at h
        cases h
      · exact ⟨h1, h2, h3⟩

/-! ## Claim theorems for the slate optimizer -/

/-- C3 (amended): when `optimize` returns a slate, the slate is a feasible
member of the fixed enumeration (size-3 combinations first, then size-4, in
`itertools.combinations` order over the filtered pool), its *code* combined
EV — computed with the combined odds rounded to 3 decimals and the EV
rounded to 4 decimals — is greatest among all feasible enumerated subsets,
and every feasible subset enumerated strictly before it has strictly
smaller code EV (first-encountered tie-breaking).  Maximality of the exact,
unrounded EV of the spec's formula can fail (see the counterexample). -/
theorem c3_rounded_ev_maximality (cfg : KombiConfig) (pool tips : List Tip)
    (o e : ℚ) (n : ℕ) (h : optimize cfg pool = .slate tips o e n) :
    ∃ l1 l2,
      combos 3 (pool.filter qualifies) ++ combos 4 (pool.filter qualifies) =
        l1 ++ tips :: l2 ∧
      feasible cfg.minTotalOdds cfg.maxTotalOdds tips = true ∧
      (∀ c ∈ combos 3 (pool.filter qualifies) ++ combos 4 (pool.filter qualifies),
        feasible cfg.minTotalOdds cfg.maxTotalOdds c = true →
        combinedEV c ≤ combinedEV tips) ∧
      (∀ c ∈ l1, feasible cfg.minTotalOdds cfg.maxTotalOdds c = true →
        combinedEV c < combinedEV tips) := by
  obtain ⟨l1, l2, hs, hf, hmax, hfirst, -, -, -⟩ :=
    optimize_slate_destruct cfg pool tips o e n h
  exact ⟨l1, l2, hs, hf, hmax, hfirst⟩

/-- Witness for C3's theorem at the concrete pool `poolC6`. -/
theorem c3_witness :
    ∃ l1 l2,
      combos 3 (poolC6.filter qualifies) ++ combos 4 (poolC6.filter qualifies) =
        l1 ++ [vB, vT, vS] :: l2 ∧
      feasible defaultConfig.minTotalOdds defaultConfig.maxTotalOdds [vB, vT, vS] = true ∧
      (∀ c ∈ combos 3 (poolC6.filter qualifies) ++ combos 4 (poolC6.filter qualifies),
        feasible defaultConfig.minTotalOdds defaultConfig.maxTotalOdds c = true →
        combinedEV c ≤ combinedEV [vB, vT, vS]) ∧
      (∀ c ∈ l1, feasible defaultConfig.minTotalOdds defaultConfig.maxTotalOdds c = true →
        combinedEV c < combinedEV [vB, vT, vS]) :=
  c3_rounded_ev_maximality defaultConfig poolC6 [vB, vT, vS] 8 (118/125) 3
    optimize_poolC6

/-- C5 (amended): a returned slate's combined price *rounded to 3 decimals*
(the value the source actually range-checks and reports) lies in
`[minTotalPrice, maxTotalPrice]`; the exact product can exceed the bounds by
up to half a thousandth (see the counterexample). -/
theorem c5_rounded_price_in_range (cfg : KombiConfig) (pool tips : List Tip)
    (o e : ℚ) (n : ℕ) (h : optimize cfg pool = .slate tips o e n) :
    cfg.minTotalOdds ≤ round_dec 3 (listProdOdds tips) ∧
    round_dec 3 (listProdOdds tips) ≤ cfg.maxTotalOdds := by
  obtain ⟨-, -, -, hf, -, -, -, -, -⟩ := optimize_slate_destruct cfg pool tips o e n h
  have hdec := feasible_elim hf
  exact ⟨hdec.2.2.1, hdec.2.2.2⟩

/-- Witness for C5's theorem at the concrete pool `poolC6`. -/
theorem c5_witness :
    defaultConfig.minTotalOdds ≤ round_dec 3 (listProdOdds [vB, vT, vS]) ∧
    round_dec 3 (listProdOdds [vB, vT, vS]) ≤ defaultConfig.maxTotalOdds :=
  c5_rounded_price_in_range defaultConfig poolC6 [vB, vT, vS] 8 (118/125) 3
    optimize_poolC6

/-- C6 (amended): no ordered pair of a returned slate (in slate order, which
is the enumeration order of the pool) shares a match, is (total, btts), or
is (total, total).  Both-totals is therefore excluded regardless of order,
but a btts member listed *before* a totals member is not excluded (see the
counterexample): the (total, btts) test is order-sensitive in the source. -/
theorem c6_no_ordered_correlation (cfg : KombiConfig) (pool tips : List Tip)
    (o e : ℚ) (n : ℕ) (h : optimize cfg pool = .slate tips o e n) :
    ∀ p ∈ allPairs tips,
      p.1.match_id ≠ p.2.match_id ∧
      ¬(p.1.market_type = "total" ∧ p.2.market_type = "btts") ∧
      ¬(p.1.market_type = "total" ∧ p.2.market_type = "total") := by
  obtain ⟨-, -, -, hf, -, -, -, -, -⟩ := optimize_slate_destruct cfg pool tips o e n h
  have hcorr := (feasible_elim hf).2.1
  intro p hp
  have hfalse : isCorrelated p.1 p.2 = false := by
    simp only [groupCorrelationCheck, List.any_eq_false] at hcorr
    simpa using hcorr p hp
  exact isCorrelated_eq_false hfalse

/-- Witness for C6's theorem at the concrete pool `poolC6` and the pair
`(vB, vT)` of its slate. -/
theorem c6_witness :
    vB.match_id ≠ vT.match_id ∧
    ¬(vB.market_type = "total" ∧ vT.market_type = "btts") ∧
    ¬(vB.market_type = "total" ∧ vT.market_type = "total") :=
  c6_no_ordered_correlation defaultConfig poolC6 [vB, vT, vS] 8 (118/125) 3
    optimize_poolC6 (vB, vT) (by simp [allPairs])

/-- C8: `optimize` returns the insufficient-candidates outcome exactly when
fewer than 3 candidates of the pool pass the value/confidence filter; the
no-feasible-combination outcome and the slate outcome are distinct values,
so a 2-qualifier pool always yields the insufficient outcome and a pool
with at least 3 qualifiers never does. -/
theorem c8_insufficient_iff (cfg : KombiConfig) (pool : List Tip) :
    optimize cfg pool = .insufficientCandidates ↔
      (pool.filter qualifies).length < 3 := by
  constructor
  · intro h
    by_contra hn
    simp only [optimize] at h
    rw [if_neg hn] at h
    rcases hsc : scanBest cfg.minTotalOdds cfg.maxTotalOdds
        (combos 3 (pool.filter qualifies) ++ combos 4 (pool.filter qualifies))
        none (-999) with ⟨b, e⟩
    rw [hsc] at h
    cases b <;> simp at h
  · intro h
    simp only [optimize]
    rw [if_pos h]

/-- C10: the returned slate always has exactly 3 or 4 tips (the enumeration
sizes are hard-coded to `[3, 4]`), and `optimize` is entirely independent of
the `kombi_tips_count` configuration value (`maxTips`): two configurations
agreeing on the odds range produce identical results on every pool. -/
theorem c10_slate_sizes_and_config_independence :
    (∀ cfg cfg' : KombiConfig, ∀ pool : List Tip,
      cfg.minTotalOdds = cfg'.minTotalOdds →
      cfg.maxTotalOdds = cfg'.maxTotalOdds →
      optimize cfg pool = optimize cfg' pool) ∧
    (∀ (cfg : KombiConfig) (pool tips : List Tip) (o e : ℚ) (n : ℕ),
      optimize cfg pool = .slate tips o e n →
      tips.length = 3 ∨ tips.length = 4) := by
  constructor
  · intro cfg cfg' pool h1 h2
    simp only [optimize]
    rw [h1, h2]
  · intro cfg pool tips o e n h
    obtain ⟨l1, l2, hs, -, -, -, -, -, -⟩ := optimize_slate_destruct cfg pool tips o e n h
    have hmem : tips ∈ combos 3 (pool.filter qualifies) ++ combos 4 (pool.filter qualifies) := by
      rw [hs]
      exact List.mem_append_right _ (List.mem_cons_self _ _)
    rcases List.mem_append.mp hmem with hmem | hmem
    · exact Or.inl (combos_length _ 3 tips hmem)
    · exact Or.inr (combos_length _ 4 tips hmem)

/-- Witness for C10's theorem: a `maxTips` change does not affect the
result, and the concrete slate of `poolC6` has 3 tips. -/
theorem c10_witness :
    optimize ⟨5.5, 8.5, 4⟩ poolC6 = optimize ⟨5.5, 8.5, 99⟩ poolC6 ∧
    ([vB, vT, vS].length = 3 ∨ [vB, vT, vS].length = 4) :=
  ⟨c10_slate_sizes_and_config_independence.1 ⟨5.5, 8.5, 4⟩ ⟨5.5, 8.5, 99⟩ poolC6
      rfl rfl,
   c10_slate_sizes_and_config_independence.2 defaultConfig poolC6 [vB, vT, vS]
      8 (118/125) 3 optimize_poolC6⟩

/-! ## Claim theorems for the fusion engine -/

/-- C7: an engine that raises is omitted by `run_all_engines` (the
surrounding `except` swallows the failure), so the collected outputs — and
therefore the fused result — are identical to a run without that engine.
No crash and no NaN can occur: both sides are the same total value. -/
theorem c7_engine_failure_isolation (sport : String) (l1 l2 : List Engine)
    (b : Engine) (hb : b.behavior = .raises) :
    runAllEngines (l1 ++ b :: l2) = runAllEngines (l1 ++ l2) ∧
    fuse sport (runAllEngines (l1 ++ b :: l2)) =
      fuse sport (runAllEngines (l1 ++ l2)) := by
  have h : runAllEngines (l1 ++ b :: l2) = runAllEngines (l1 ++ l2) := by
    simp only [runAllEngines, List.filterMap_append, List.filterMap_cons, hb]
  exact ⟨h, by rw [h]⟩

/-- Witness for C7's theorem: concrete engines where the middle one raises. -/
theorem c7_witness :
    runAllEngines [engA, engB, engC] = runAllEngines [engA, engC] ∧
    fuse "football" (runAllEngines [engA, engB, engC]) =
      fuse "football" (runAllEngines [engA, engC]) :=
  c7_engine_failure_isolation "football" [engA] [engC] engB rfl

/-- The final-fusion fold for one key, re-expressed as a sum over the
categories whose aggregate contains the key literally. -/
lemma weightedSum_eq_filterMap (key : String)
    (cs : List (String × List (String × ℚ))) :
    weightedSum key cs =
      (cs.filterMap (fun c => (lookupQ c.2 key).map (fun v => v * weightOf c.1))).sum := by
  have aux : ∀ (l : List (String × List (String × ℚ))) (t : ℚ),
      l.foldl (fun total c =>
        match lookupQ c.2 key with
        | some v => total + v * weightOf c.1
        | none => total) t =
      t + (l.filterMap (fun c => (lookupQ c.2 key).map (fun v => v * weightOf c.1))).sum := by
    intro l
    induction l with
    | nil => intro t; simp
    | cons c rest ih =>
      intro t
      rcases hl : lookupQ c.2 key with - | v
      · simp only [List.foldl_cons, List.filterMap_cons, hl]
        exact ih t
      · simp only [List.foldl_cons, List.filterMap_cons, hl, Option.map_some']
        rw [ih (t + v * weightOf c.1), List.sum_cons]
        ring
  rw [weightedSum, aux]
  ring

/-- C2 (amended): every value of a returned final mapping is the weighted
sum, rounded to 4 decimals, of the category aggregate entries whose key is
*literally* the canonical field name — a category whose aggregate lacks the
literal key contributes nothing.  The synonym schema mapping only selects
the output key set; its averaged values are discarded, so synonym keys never
contribute to any final score (see the counterexample). -/
theorem c2_literal_weighted_sum (sport : String) (raw : RawOutputs)
    (m : List (String × ℚ)) (k : String) (v : ℚ)
    (h : fuse sport raw = .finalMap m) (hm : (k, v) ∈ m) :
    v = round_dec 4
      (((categoryScores raw).filterMap
        (fun c => (lookupQ c.2 k).map (fun x => x * weightOf c.1))).sum) := by
  simp only [fuse] at h
  split at h
  · exact absurd h (by simp)
  · simp only [FuseResult.finalMap.injEq] at h
    subst h
    obtain ⟨k2, hk2, heq⟩ := List.mem_map.mp hm
    obtain ⟨rfl, rfl⟩ : k2 = k ∧ round_dec 4 (weightedSum k2 (categoryScores raw)) = v := by
      simpa [Prod.ext_iff] using heq
    rw [weightedSum_eq_filterMap]

/-- Witness for C2's theorem on the concrete raw outputs `rawW`. -/
theorem c2_witness :
    (3/20 : ℚ) = round_dec 4
      (((categoryScores rawW).filterMap
        (fun c => (lookupQ c.2 "ah_home").map (fun x => x * weightOf c.1))).sum) :=
  c2_literal_weighted_sum "football" rawW finalW "ah_home" (3/20) fuse_rawW
    (by simp [finalW])

lemma weightedSum_eq_zero {key : String} {cs : List (String × List (String × ℚ))}
    (h : ∀ c ∈ cs, lookupQ c.2 key = none) : weightedSum key cs = 0 := by
  rw [weightedSum_eq_filterMap]
  have : cs.filterMap (fun c => (lookupQ c.2 key).map (fun v => v * weightOf c.1)) = [] := by
    rw [List.filterMap_eq_nil_iff]
    intro c hc
    rw [h c hc]
    rfl
  rw [this]
  rfl

lemma lookupQ_map_self (keys : List String) (g : String → ℚ) (f : String)
    (hf : f ∈ keys) :
    lookupQ (keys.map (fun k => (k, g k))) f = some (g f) := by
  induction keys with
  | nil => exact absurd hf (List.not_mem_nil f)
  | cons k rest ih =>
    by_cases hk : k = f
    · subst hk
      simp [lookupQ, List.find?]
    · have hf2 : f ∈ rest := by
        rcases List.mem_cons.mp hf with rfl | hf2
        · exact absurd rfl hk
        · exact hf2
      simp only [List.map_cons, lookupQ, List.find?] at ih ⊢
      rw [show (decide (k = f)) = false from decide_eq_false hk]
      exact ih hf2

lemma mappedKeys_football (cs : List (String × List (String × ℚ))) :
    mappedKeys (mapToLiquidMarkets "football" cs) =
      footballSchema.map (fun fs => fs.1) := by
  simp [mapToLiquidMarkets, mappedKeys, List.map_map, Function.comp]

/-- C4 (amended): a canonical football field none of whose synonym keys
occurs in any category aggregate is mapped to the number `0.0` in a returned
final mapping — not to an "unavailable" marker distinct from zero.  (When
every field is zero the entire mapping is replaced by the
`{"prediction": None}` sentinel, so per-field absence is never observable.) -/
theorem c4_missing_field_is_zero (raw : RawOutputs) (m : List (String × ℚ))
    (f : String) (syns : List String)
    (hschema : (f, syns) ∈ footballSchema)
    (hnone : ∀ s ∈ syns, ∀ c ∈ categoryScores raw, lookupQ c.2 s = none)
    (h : fuse "football" raw = .finalMap m) :
    lookupQ m f = some 0 := by
  have hself : ∀ p ∈ footballSchema, p.1 ∈ p.2 := by decide
  have hfs : f ∈ syns := hself (f, syns) hschema
  have hws : weightedSum f (categoryScores raw) = 0 :=
    weightedSum_eq_zero (hnone f hfs)
  simp only [fuse] at h
  split at h
  · exact absurd h (by simp)
  · simp only [FuseResult.finalMap.injEq] at h
    subst h
    rw [mappedKeys_football,
      lookupQ_map_self _ _ f (List.mem_map_of_mem (fun fs => fs.1) hschema),
      hws, round4_zero]

/-- Witness for C4's theorem on the concrete raw outputs `rawW`. -/
theorem c4_witness : lookupQ finalW "over_2_5" = some 0 :=
  c4_missing_field_is_zero rawW finalW "over_2_5" ["over25", "o25", "over_2_5"]
    (by simp [footballSchema])
    (by
      intro s hs c hc
      rw [cs_rawW] at hc
      simp only [List.mem_cons, List.not_mem_nil, or_false] at hc hs
      rcases hc with rfl | rfl | rfl | rfl | rfl | rfl | rfl <;>
        rcases hs with rfl | rfl | rfl <;> simp [lookupQ, List.find?])
    fuse_rawW

/-! ## C9: bounds on fused values -/

lemma clamp01_mem (v : ℚ) : 0 ≤ clamp01 v ∧ clamp01 v ≤ 1 :=
  ⟨le_max_left 0 _, max_le (by norm_num) (min_le_left 1 v)⟩

lemma normalizeOutput_bounds {o : Option RawOut} {out : List (String × ℚ)}
    (h : normalizeOutput o = some out) : ∀ kv ∈ out, 0 ≤ kv.2 ∧ kv.2 ≤ 1 := by
  match o with
  | none => cases h
  | some (.dict d) =>
    obtain rfl : d.map (fun kv => (kv.1, clamp01 kv.2)) = out := by
      simpa [normalizeOutput] using h
    intro kv hkv
    obtain ⟨kv2, -, rfl⟩ := List.mem_map.mp hkv
    exact clamp01_mem kv2.2
  | some (.num q) =>
    obtain rfl : [("value", clamp01 q)] = out := by
      simpa [normalizeOutput] using h
    intro kv hkv
    obtain rfl : kv = ("value", clamp01 q) := by simpa using hkv
    exact clamp01_mem q

/-- Invariant carried through the `setdefault`/`append` collection phase of
`aggregate`: every key's value list is nonempty with entries in `[0, 1]`. -/
def CollOk (agg : List (String × List ℚ)) : Prop :=
  ∀ e ∈ agg, e.2 ≠ [] ∧ ∀ v ∈ e.2, 0 ≤ v ∧ v ≤ 1

lemma addKV_collOk {agg : List (String × List ℚ)} {k : String} {v : ℚ}
    (h : CollOk agg) (hv : 0 ≤ v ∧ v ≤ 1) : CollOk (addKV agg k v) := by
  induction agg with
  | nil =>
    intro e he
    obtain rfl : e = (k, [v]) := by simpa [addKV] using he
    refine ⟨by simp, ?_⟩
    intro w hw
    obtain rfl : w = v := by simpa using hw
    exact hv
  | cons kv2 rest ih =>
    intro e he
    rw [addKV] at he
    split at he
    · rcases List.mem_cons.mp he with rfl | he
      · refine ⟨by simp, ?_⟩
        intro w hw
        rcases List.mem_append.mp hw with hw | hw
        · exact (h kv2 (List.mem_cons_self _ _)).2 w hw
        · obtain rfl : w = v := by simpa using hw
          exact hv
      · exact h e (List.mem_cons_of_mem _ he)
    · rcases List.mem_cons.mp he with rfl | he
      · exact h e (List.mem_cons_self _ _)
      · exact ih (fun e2 he2 => h e2 (List.mem_cons_of_mem _ he2)) e he

lemma foldl_addKV_collOk :
    ∀ (out : List (String × ℚ)) (agg : List (String × List ℚ)),
      CollOk agg → (∀ kv ∈ out, 0 ≤ kv.2 ∧ kv.2 ≤ 1) →
      CollOk (out.foldl (fun a kv => addKV a kv.1 kv.2) agg) := by
  intro out
  induction out with
  | nil => intro agg h _; exact h
  | cons kv rest ih =>
    intro agg h hb
    simp only [List.foldl_cons]
    exact ih _ (addKV_collOk h (hb kv (List.mem_cons_self _ _)))
      (fun kv2 hkv2 => hb kv2 (List.mem_cons_of_mem _ hkv2))

lemma collect_collOk :
    ∀ (outs : List (List (String × ℚ))) (agg : List (String × List ℚ)),
      CollOk agg → (∀ out ∈ outs, ∀ kv ∈ out, 0 ≤ kv.2 ∧ kv.2 ≤ 1) →
      CollOk (outs.foldl
        (fun acc out => out.foldl (fun a kv => addKV a kv.1 kv.2) acc) agg) := by
  intro outs
  induction outs with
  | nil => intro agg h _; exact h
  | cons out rest ih =>
    intro agg h hb
    simp only [List.foldl_cons]
    exact ih _ (foldl_addKV_collOk out agg h (hb out (List.mem_cons_self _ _)))
      (fun o ho => hb o (List.mem_cons_of_mem _ ho))

lemma sum_le_length : ∀ l : List ℚ, (∀ v ∈ l, v ≤ 1) → l.sum ≤ l.length := by
  intro l
  induction l with
  | nil => intro _; simp
  | cons v rest ih =>
    intro h
    simp only [List.sum_cons, List.length_cons]
    push_cast
    have h1 : v ≤ 1 := h v (List.mem_cons_self _ _)
    have h2 : rest.sum ≤ rest.length := ih (fun w hw => h w (List.mem_cons_of_mem _ hw))
    linarith

lemma sum_nonneg_list : ∀ l : List ℚ, (∀ v ∈ l, 0 ≤ v) → 0 ≤ l.sum := by
  intro l
  induction l with
  | nil => intro _; simp
  | cons v rest ih =>
    intro h
    simp only [List.sum_cons]
    have h1 : 0 ≤ v := h v (List.mem_cons_self _ _)
    have h2 : 0 ≤ rest.sum := ih (fun w hw => h w (List.mem_cons_of_mem _ hw))
    linarith

lemma aggregate_bounds (outs : List (List (String × ℚ)))
    (h : ∀ out ∈ outs, ∀ kv ∈ out, 0 ≤ kv.2 ∧ kv.2 ≤ 1) :
    ∀ kv ∈ aggregate outs, 0 ≤ kv.2 ∧ kv.2 ≤ 1 := by
  intro kv hkv
  have hcoll := collect_collOk outs [] (fun e he => absurd he (List.not_mem_nil e)) h
  simp only [aggregate] at hkv
  obtain ⟨e, he, rfl⟩ := List.mem_map.mp hkv
  obtain ⟨hne, hvals⟩ := hcoll e he
  have hlen : (0 : ℚ) < e.2.length := by
    have := List.length_pos.mpr hne
    exact_mod_cast this
  constructor
  · exact div_nonneg (sum_nonneg_list e.2 (fun v hv => (hvals v hv).1)) (le_of_lt hlen)
  · rw [div_le_one hlen]
    exact sum_le_length e.2 (fun v hv => (hvals v hv).2)

lemma lookupQ_mem {α : Type} {d : List (String × α)} {k : String} {v : α}
    (h : lookupQ d k = some v) : ∃ kv ∈ d, kv.2 = v := by
  simp only [lookupQ] at h
  rcases hf : d.find? (fun kv => kv.1 = k) with - | kv
  · rw [hf] at h; cases h
  · rw [hf] at h
    exact ⟨kv, List.mem_of_find?_eq_some hf, by simpa using h⟩

lemma weightOf_nonneg (cat : String) : 0 ≤ weightOf cat := by
  rw [weightOf]
  rcases hl : lookupQ catWeights cat with - | w
  · simp
  · simp only [Option.getD_some]
    obtain ⟨kv, hkv, rfl⟩ := lookupQ_mem hl
    have hall : ∀ p ∈ catWeights, 0 ≤ p.2 := by
      intro p hp
      simp only [catWeights, List.mem_cons, List.not_mem_nil, or_false] at hp
      rcases hp with rfl | rfl | rfl | rfl | rfl | rfl | rfl <;> norm_num
    exact hall kv hkv

lemma weightedSum_bounds_aux (key : String) :
    ∀ (l : List (String × List (String × ℚ))) (t : ℚ),
      (∀ c ∈ l, ∀ kv ∈ c.2, 0 ≤ kv.2 ∧ kv.2 ≤ 1) →
      t ≤ l.foldl (fun total c =>
          match lookupQ c.2 key with
          | some v => total + v * weightOf c.1
          | none => total) t ∧
      l.foldl (fun total c =>
          match lookupQ c.2 key with
          | some v => total + v * weightOf c.1
          | none => total) t ≤ t + (l.map (fun c => weightOf c.1)).sum := by
  intro l
  induction l with
  | nil => intro t _; simp
  | cons c rest ih =>
    intro t hb
    have hbrest : ∀ c2 ∈ rest, ∀ kv ∈ c2.2, 0 ≤ kv.2 ∧ kv.2 ≤ 1 :=
      fun c2 hc2 => hb c2 (List.mem_cons_of_mem _ hc2)
    have hwnn := weightOf_nonneg c.1
    rcases hl : lookupQ c.2 key with - | v
    · simp only [List.foldl_cons, hl, List.map_cons, List.sum_cons]
      obtain ⟨ih1, ih2⟩ := ih t hbrest
      exact ⟨ih1, by linarith⟩
    · obtain ⟨kv, hkv, rfl⟩ := lookupQ_mem hl
      have hv := hb c (List.mem_cons_self _ _) kv hkv
      simp only [List.foldl_cons, hl, List.map_cons, List.sum_cons]
      obtain ⟨ih1, ih2⟩ := ih (t + kv.2 * weightOf c.1) hbrest
      have hnn : 0 ≤ kv.2 * weightOf c.1 := mul_nonneg hv.1 hwnn
      have hle : kv.2 * weightOf c.1 ≤ weightOf c.1 :=
        mul_le_of_le_one_left hwnn hv.2
      exact ⟨by linarith, by linarith⟩

lemma weightedSum_bounds (key : String) (cs : List (String × List (String × ℚ)))
    (h : ∀ c ∈ cs, ∀ kv ∈ c.2, 0 ≤ kv.2 ∧ kv.2 ≤ 1) :
    0 ≤ weightedSum key cs ∧
    weightedSum key cs ≤ (cs.map (fun c => weightOf c.1)).sum := by
  have haux := weightedSum_bounds_aux key cs 0 h
  rw [weightedSum]
  exact ⟨haux.1, by linarith [haux.2]⟩

lemma categoryScores_weights_sum (raw : RawOutputs) :
    ((categoryScores raw).map (fun c => weightOf c.1)).sum = 1 := by
  simp [categoryScores, List.map_map, Function.comp, catWeights, weightOf,
    lookupQ, List.find?]
  norm_num

lemma categoryScores_bounds (raw : RawOutputs) :
    ∀ c ∈ categoryScores raw, ∀ kv ∈ c.2, 0 ≤ kv.2 ∧ kv.2 ≤ 1 := by
  intro c hc
  simp only [categoryScores] at hc
  obtain ⟨cw, hcw, rfl⟩ := List.mem_map.mp hc
  refine aggregate_bounds _ ?_
  intro out hout
  obtain ⟨e, he, hfe⟩ := List.mem_filterMap.mp hout
  split at hfe
  · exact normalizeOutput_bounds hfe
  · cases hfe

lemma rhe_nonneg {x : ℚ} (h : 0 ≤ x) : 0 ≤ rhe x := by
  have hf : 0 ≤ ⌊x⌋ := Int.floor_nonneg.mpr h
  unfold rhe
  split_ifs <;> omega

lemma rhe_le_intCast {x : ℚ} (m : ℤ) (h : x ≤ m) : rhe x ≤ m := by
  have hfl : ⌊x⌋ ≤ m := by
    have hmono := Int.floor_le_floor h
    rwa [Int.floor_intCast] at hmono
  have hfx : (⌊x⌋ : ℚ) ≤ x := Int.floor_le x
  unfold rhe
  split_ifs with h1 h2 h3
  · exact hfl
  · have hlt : (⌊x⌋ : ℚ) < m := by linarith
    have : ⌊x⌋ < m := by exact_mod_cast hlt
    omega
  · exact hfl
  · have h1b : 1/2 ≤ x - ⌊x⌋ := not_lt.mp h1
    have hlt : (⌊x⌋ : ℚ) < m := by linarith
    have : ⌊x⌋ < m := by exact_mod_cast hlt
    omega

lemma round_dec4_mem {x : ℚ} (h0 : 0 ≤ x) (h1 : x ≤ 1) :
    0 ≤ round_dec 4 x ∧ round_dec 4 x ≤ 1 := by
  rw [round_dec]
  constructor
  · apply div_nonneg _ (by norm_num : (0:ℚ) ≤ 10 ^ 4)
    exact_mod_cast rhe_nonneg (by positivity)
  · rw [div_le_one (by norm_num : (0:ℚ) < 10 ^ 4)]
    have hx4 : x * 10 ^ 4 ≤ ((10000 : ℤ) : ℚ) := by
      have := mul_le_mul_of_nonneg_right h1 (by norm_num : (0:ℚ) ≤ 10 ^ 4)
      push_cast
      linarith
    have hle := rhe_le_intCast 10000 hx4
    have : ((rhe (x * 10 ^ 4) : ℤ) : ℚ) ≤ ((10000 : ℤ) : ℚ) := by exact_mod_cast hle
    push_cast at this ⊢
    linarith

/-- C9: whenever `fuse` returns a final mapping and every engine output is a
(numeric) dict, every fused value lies in `[0, 1]`: normalization clamps to
`[0, 1]`, category aggregation takes means of clamped values, the final
score of a field is a sub-convex combination under the fixed category
weights — which sum to exactly 1 — and 4-decimal rounding preserves the
interval. -/
theorem c9_values_in_unit_interval (sport : String) (raw : RawOutputs)
    (m : List (String × ℚ))
    (hdict : ∀ e ∈ raw, ∃ d, e.2.2 = some (RawOut.dict d))
    (h : fuse sport raw = .finalMap m) :
    (∀ kv ∈ m, 0 ≤ kv.2 ∧ kv.2 ≤ 1) ∧
    (catWeights.map (fun cw => cw.2)).sum = 1 := by
  refine ⟨?_, by norm_num [catWeights]⟩
  intro kv hkv
  simp only [fuse] at h
  split at h
  · exact absurd h (by simp)
  · simp only [FuseResult.finalMap.injEq] at h
    subst h
    obtain ⟨k, hk, rfl⟩ := List.mem_map.mp hkv
    have hb := weightedSum_bounds k (categoryScores raw) (categoryScores_bounds raw)
    have hupper : weightedSum k (categoryScores raw) ≤ 1 := by
      have h2 := hb.2
      rwa [categoryScores_weights_sum] at h2
    exact round_dec4_mem hb.1 hupper

/-- Witness for C9's theorem on the concrete raw outputs `rawW`. -/
theorem c9_witness : 0 ≤ (3/20 : ℚ) ∧ (3/20 : ℚ) ≤ 1 :=
  (c9_values_in_unit_interval "football" rawW finalW
    (by
      intro e he
      simp only [rawW, List.mem_cons, List.not_mem_nil, or_false] at he
      subst he
      exact ⟨[("ah_home", 0.5)], rfl⟩)
    fuse_rawW).1 ("ah_home", 3/20) (by simp [finalW])

/-! ## C1: the weight table sums to 1 after every update -/

lemma engineReward_ge (st : MetaState) (name : String) :
    1/100 ≤ engineReward st name := by
  rw [engineReward]
  split_ifs
  · norm_num
  · refine le_min (le_trans (by norm_num) (le_max_right _ _)) (by norm_num)

lemma dictSet_forall {P : ℚ → Prop} :
    ∀ (d : List (String × ℚ)) (k : String) (v : ℚ),
      (∀ p ∈ d, P p.2) → P v → ∀ p ∈ dictSet d k v, P p.2 := by
  intro d
  induction d with
  | nil =>
    intro k v _ hv p hp
    obtain rfl : p = (k, v) := by simpa [dictSet] using hp
    exact hv
  | cons kv rest ih =>
    intro k v h hv p hp
    rw [dictSet] at hp
    split at hp
    · rcases List.mem_cons.mp hp with rfl | hp
      · exact hv
      · exact h p (List.mem_cons_of_mem _ hp)
    · rcases List.mem_cons.mp hp with rfl | hp
      · exact h p (List.mem_cons_self _ _)
      · exact ih k v (fun q hq => h q (List.mem_cons_of_mem _ hq)) hv p hp

lemma dictSet_mem_self :
    ∀ (d : List (String × ℚ)) (k : String) (v : ℚ), (k, v) ∈ dictSet d k v := by
  intro d
  induction d with
  | nil => intro k v; simp [dictSet]
  | cons kv rest ih =>
    intro k v
    rw [dictSet]
    split
    · exact List.mem_cons_self _ _
    · exact List.mem_cons_of_mem _ (ih k v)

lemma lookupQ_getD_nonneg {d : List (String × ℚ)} (h : ∀ p ∈ d, 0 ≤ p.2)
    (e : String) : 0 ≤ (lookupQ d e).getD 0 := by
  rcases hl : lookupQ d e with - | v
  · simp
  · simp only [Option.getD_some]
    obtain ⟨kv, hkv, rfl⟩ := lookupQ_mem hl
    exact h kv hkv

lemma rewardPass_all_nonneg (st : MetaState) (hsf : 0 ≤ st.stabilityFactor)
    (hlr : 0 ≤ st.lr) :
    ∀ (es : List String) (d : List (String × ℚ)),
      (∀ p ∈ d, 0 ≤ p.2) → ∀ p ∈ rewardPass st d es, 0 ≤ p.2 := by
  intro es
  induction es with
  | nil => intro d h; exact h
  | cons e rest ih =>
    intro d h
    have hval : 0 ≤ (lookupQ d e).getD 0 * st.stabilityFactor + engineReward st e * st.lr := by
      have h1 := lookupQ_getD_nonneg h e
      have h2 := engineReward_ge st e
      have := mul_nonneg h1 hsf
      have := mul_nonneg (le_trans (by norm_num) h2) hlr
      linarith
    exact ih _ (dictSet_forall d e _ h hval)

lemma rewardPass_exists_pos (st : MetaState) (hsf : 0 ≤ st.stabilityFactor)
    (hlr : 0 < st.lr) :
    ∀ (es : List String) (d : List (String × ℚ)), es ≠ [] →
      (∀ p ∈ d, 0 ≤ p.2) → ∃ p ∈ rewardPass st d es, 0 < p.2 := by
  intro es
  induction es with
  | nil => intro d h; exact absurd rfl h
  | cons e rest ih =>
    intro d _ h
    have hval : 0 < (lookupQ d e).getD 0 * st.stabilityFactor + engineReward st e * st.lr := by
      have h1 := lookupQ_getD_nonneg h e
      have h2 := engineReward_ge st e
      have h3 := mul_nonneg h1 hsf
      have h4 : (1 : ℚ)/100 * st.lr ≤ engineReward st e * st.lr :=
        mul_le_mul_of_nonneg_right h2 (le_of_lt hlr)
      nlinarith
    cases rest with
    | nil =>
      refine ⟨(e, (lookupQ d e).getD 0 * st.stabilityFactor + engineReward st e * st.lr), ?_, hval⟩
      exact dictSet_mem_self d e _
    | cons e2 rest2 =>
      exact ih _ (by simp) (dictSet_forall d e _ h (le_of_lt hval))

lemma initWeights_body_nonneg (v : ℚ) (hv : 0 ≤ v) :
    ∀ (es : List String) (d : List (String × ℚ)),
      (∀ p ∈ d, 0 ≤ p.2) →
      ∀ p ∈ es.foldl (fun d e => if (lookupQ d e).isNone then dictSet d e v else d) d,
        0 ≤ p.2 := by
  intro es
  induction es with
  | nil => intro d h; exact h
  | cons e rest ih =>
    intro d h
    simp only [List.foldl_cons]
    split
    · exact ih _ (dictSet_forall d e v h hv)
    · exact ih _ h

lemma initWeights_nonneg (w : List (String × ℚ)) (es : List String)
    (h : ∀ p ∈ w, 0 ≤ p.2) : ∀ p ∈ initWeights w es, 0 ≤ p.2 :=
  initWeights_body_nonneg (1 / (es.length : ℚ))
    (div_nonneg zero_le_one (Nat.cast_nonneg _)) es w h

lemma sumValues_pos {d : List (String × ℚ)} (hall : ∀ p ∈ d, 0 ≤ p.2) :
    ∀ p0 ∈ d, 0 < p0.2 → 0 < (d.map (fun kv => kv.2)).sum := by
  induction d with
  | nil => intro p0 hp0; cases hp0
  | cons q rest ih =>
    intro p0 hp0 hpos
    simp only [List.map_cons, List.sum_cons]
    have hrest : ∀ p ∈ rest, 0 ≤ p.2 := fun p hp => hall p (List.mem_cons_of_mem _ hp)
    rcases List.mem_cons.mp hp0 with rfl | hp0
    · have : 0 ≤ (rest.map (fun kv => kv.2)).sum :=
        sum_nonneg_list _ (by
          intro v hv
          obtain ⟨kv, hkv, rfl⟩ := List.mem_map.mp hv
          exact hrest kv hkv)
      linarith
    · have := ih hrest p0 hp0 hpos
      have hq := hall q (List.mem_cons_self _ _)
      linarith

lemma sum_map_div (l : List ℚ) (c : ℚ) : (l.map (fun x => x / c)).sum = l.sum / c := by
  induction l with
  | nil => simp
  | cons x rest ih =>
    simp only [List.map_cons, List.sum_cons, ih]
    rw [add_div]

lemma normalizeTable_sum {d : List (String × ℚ)}
    (h : 0 < (d.map (fun kv => kv.2)).sum) :
    ((normalizeTable d).map (fun kv => kv.2)).sum = 1 := by
  simp only [normalizeTable]
  rw [if_neg (ne_of_gt h), List.map_map]
  have : ((fun kv : String × ℚ => kv.2) ∘ fun kv : String × ℚ =>
      (kv.1, kv.2 / (d.map (fun kv => kv.2)).sum)) =
      fun kv : String × ℚ => kv.2 / (d.map (fun kv => kv.2)).sum := rfl
  rw [this, show (fun kv : String × ℚ => kv.2 / (d.map (fun kv => kv.2)).sum) =
      (fun x => x / (d.map (fun kv => kv.2)).sum) ∘ (fun kv : String × ℚ => kv.2) from rfl,
    ← List.map_map, sum_map_div]
  exact div_self (ne_of_gt h)

/-- C1: after `update_weights`, the weight table sums to exactly 1 (so in
particular to 1.0 within `1e-9`), for any nonempty engine list, any prior
table with nonnegative weights, a nonnegative stability factor and a
positive learning rate.  The renormalization step `_normalize` is modelled
from the spec because its body is missing from the source file (the file is
truncated); every engine of the list ends with a strictly positive weight
(reward is at least 0.01), so the total is positive and the division is
well defined. -/
theorem c1_update_weights_renormalizes (st : MetaState) (engineList : List String)
    (hne : engineList ≠ []) (hw : ∀ p ∈ st.weights, 0 ≤ p.2)
    (hsf : 0 ≤ st.stabilityFactor) (hlr : 0 < st.lr) :
    |(((updateWeights st engineList).weights).map (fun kv => kv.2)).sum - 1| ≤
      1/1000000000 := by
  have h1 : ∀ p ∈ initWeights st.weights engineList, 0 ≤ p.2 :=
    initWeights_nonneg st.weights engineList hw
  have h2 : ∀ p ∈ rewardPass st (initWeights st.weights engineList) engineList, 0 ≤ p.2 :=
    rewardPass_all_nonneg st hsf (le_of_lt hlr) engineList _ h1
  obtain ⟨p0, hp0, hpos⟩ :=
    rewardPass_exists_pos st hsf hlr engineList _ hne h1
  have hsum : 0 < ((rewardPass st (initWeights st.weights engineList) engineList).map
      (fun kv => kv.2)).sum := sumValues_pos h2 p0 hp0 hpos
  have hone := normalizeTable_sum hsum
  simp only [updateWeights] at hone ⊢
  rw [hone]
  norm_num

/-- Witness for C1's theorem: a fresh state (empty tables, learning rate 0.1,
stability factor 0.85) updated with one engine. -/
theorem c1_witness :
    |(((updateWeights ⟨[], [], 0.1, 0.85⟩ ["a"]).weights).map (fun kv => kv.2)).sum - 1| ≤
      1/1000000000 :=
  c1_update_weights_renormalizes ⟨[], [], 0.1, 0.85⟩ ["a"] (by simp)
    (by simp) (by norm_num) (by norm_num)

end S2P
